import Mathlib

/-!
Shallow embedding of the core of the `prolog` repository (the root
`prolog` package: engine, clause compiler, bytecode machine; and the
newer `engine` package's compound unification), together with proofs
of the specification claims about them.

The Go code mutates `Variable.Ref` cells in place; the embedding passes
an explicit binding environment (an association list from variable
identity to bound term, an absent key modelling a nil `Ref`).  Side
effects (the warning log of `arrive`) become explicit return values.
Recursions of the Go code that are not structural (following `Ref`
chains) take an explicit fuel argument.
-/

namespace P0

/-- Terms of the root `prolog` package.  `pind` is `procedureIndicator`
(which implements `Term` in the source and is stored in `xrTable`);
`nilt` is a nil Go `Term` interface value (passed for `args`/`astack`
in the `[opExit]` program run by host-predicate continuations; no
instruction ever inspects it there).  The `float` payload stands for
the bit pattern of the Go `float64`; no claim depends on float
arithmetic. -/
inductive Term where
  | atom (s : String)
  | int (n : Int)
  | float (bits : Nat)
  | var (id : Nat)
  | compound (f : String) (args : List Term)
  | pind (name : String) (arity : Int)
  | nilt

/-- The binding environment: `Variable.Ref` cells of the source, as an
association list from variable identity to bound term.  No entry for a
variable models `Ref == nil`. -/
abbrev Env : Type := List (Nat × Term)

/-- Reading a `Ref` cell. -/
def lookupEnv : Env → Nat → Option Term
  | [], _ => none
  | p :: rest, v => if p.1 = v then some p.2 else lookupEnv rest v

/-- Writing a `Ref` cell of an unbound variable. -/
def bindVar (env : Env) (v : Nat) (t : Term) : Env := (v, t) :: env

/-- Resolution with explicit fuel: follow the `Ref` chain until a
non-variable or an unbound variable. -/
def resolveN : Nat → Env → Term → Term
  | 0, _, t => t
  | fuel + 1, env, t =>
    match t with
    | .var v =>
      match lookupEnv env v with
      | some r => resolveN fuel env r
      | none => t
    | _ => t

/-- Modelled from the spec: `Resolve` of the root package (its term.go
is not under src/).  "follows bindings until reaching a non-variable
or an unbound variable".  A chain longer than the number of bindings
revisits a variable, so the environment length bounds the fuel. -/
def resolve0 (env : Env) (t : Term) : Term := resolveN (env.length + 1) env t

/-- Occurs check: does variable `v` occur in (the resolved form of)
`t`? -/
def occurs0 : Nat → Nat → Term → Env → Bool
  | 0, _, _, _ => false
  | fuel + 1, v, t, env =>
    match resolve0 env t with
    | .var w => v = w
    | .compound _ as => as.any (fun a => occurs0 fuel v a env)
    | _ => false

/-- Argument-pairs loop of compound unification, parameterized by the
unifier for one pair: left-to-right, threading the environment,
stopping at the first failure. -/
def unifyList0 (u : Term → Term → Env → Env × Bool) :
    List Term → List Term → Env → Env × Bool
  | [], [], env => (env, true)
  | a :: as, b :: bs, env =>
    match u a b env with
    | (env1, true) => unifyList0 u as bs env1
    | (env1, false) => (env1, false)
  | _, _, env => (env, false)

/-- Modelled from the spec: `Term.Unify` of the root package is not
under src/.  §4.1: resolve both sides; a variable binds to the other
side (occurs check optional); compounds need the same functor and
arity and unify arguments left-to-right threading the environment;
constants unify by exact equality of the same kind; otherwise fail.
On failure the bindings made so far remain (the Go code mutates in
place and does not undo).  Fuel models the non-structural recursion
through bound variables; exhausted fuel reports failure. -/
def unify0 : Nat → Term → Term → Bool → Env → Env × Bool
  | 0, _, _, _, env => (env, false)
  | fuel + 1, s, t, oc, env =>
    match resolve0 env s, resolve0 env t with
    | .var v, .var w =>
      if v = w then (env, true) else (bindVar env v (.var w), true)
    | .var v, t' =>
      if oc && occurs0 fuel v t' env then (env, false) else (bindVar env v t', true)
    | s', .var w =>
      if oc && occurs0 fuel w s' env then (env, false) else (bindVar env w s', true)
    | .atom a, .atom b => (env, decide (a = b))
    | .int m, .int n => (env, decide (m = n))
    | .float x, .float y => (env, decide (x = y))
    | .pind f m, .pind g n => (env, decide (f = g ∧ m = n))
    | .compound f as, .compound g bs =>
      if f = g ∧ as.length = bs.length then
        unifyList0 (fun a b env => unify0 fuel a b oc env) as bs env
      else (env, false)
    | _, _ => (env, false)

/-- The term `List()` of the root package applied to no elements: the atom `[]`. -/
def emptyList : Term := Term.atom "[]"

/-- Builds `Cons` / `List(...)`: a proper list term. -/
def mkList : List Term → Term
  | [] => emptyList
  | t :: ts => .compound "." [t, mkList ts]

/-- Model of `assignment.add`: collect the unbound variables reachable from a
term, following `Ref` chains (a bound variable contributes the
variables of its binding instead of itself), deduplicating, in
first-visit order. -/
def addVars : Nat → Env → Term → List Nat → List Nat
  | 0, _, _, acc => acc
  | fuel + 1, env, t, acc =>
    match t with
    | .var v =>
      match lookupEnv env v with
      | some r => addVars fuel env r acc
      | none => if v ∈ acc then acc else acc ++ [v]
    | .compound _ args => args.foldl (fun acc a => addVars fuel env a acc) acc
    | _ => acc

/-- Model of `newAssignment(args)`: the pre-activation snapshot taken by
`clauses.Call`. -/
def newAssignment (fuel : Nat) (args : Term) (env : Env) : List Nat :=
  addVars fuel env args []

/-- Clearing one `Ref` cell (`v.Ref = nil`): remove the binding of `v`. -/
def removeKey : Env → Nat → Env
  | [], _ => []
  | p :: rest, v => if p.1 = v then removeKey rest v else p :: removeKey rest v

/-- Model of `assignment.reset`: set `Ref = nil` for every variable of the
snapshot. -/
def assignmentReset (a : List Nat) (env : Env) : Env :=
  a.foldl removeKey env

/-! ## The clause compiler -/

/-- The opcodes (`opVoid byte = iota`, …). -/
def opVoid : Nat := 0
def opEnter : Nat := 1
def opCall : Nat := 2
def opExit : Nat := 3
def opConst : Nat := 4
def opVar : Nat := 5
def opFunctor : Nat := 6
def opPop : Nat := 7

/-- The `clause` record built by the compiler.  The Go struct also
stores `pf` and `raw`, which only the surrounding database code uses;
variables are kept by identity, the `Name` erasure of `varOffset`
being invisible on identities. -/
structure Clause where
  xrTable : List Term
  vars : List Nat
  bytecode : List Nat

/-- Compilation and execution errors of the core. -/
inductive PErr where
  /-- Error `existenceErrorProcedure(&Compound{"/", [name, arity]})`. -/
  | existenceErrorProcedure (t : Term)
  /-- Error `typeErrorCallable(t)`. -/
  | typeErrorCallable (t : Term)
  /-- Error `systemError(fmt.Errorf("unknown unknown: %s", u))` in `arrive`. -/
  | systemErrorUnknown (u : Nat)
  /-- Error `systemError(fmt.Errorf("unknown argument: %s", a))` in `compileArg`. -/
  | systemErrorArg (t : Term)
  /-- Error `errors.New("not a principal functor")` in `exec`. -/
  | errNotPrincipalFunctor
  /-- Error `fmt.Errorf("unknown(%d)", pc[0])`: the default opcode branch of `exec`. -/
  | errUnknownOpcode (op : Nat)
  /-- Error `errors.New("non-exit end of bytecode")` in `exec`. -/
  | errNonExitEnd
  /-- Error `errors.New("wrong number of arguments")` in `predicate0/2/3/4/5.Call`. -/
  | errWrongArity
  /-- Error `fmt.Errorf("wrong number of arguments: %s", args)` in `predicate1.Call`. -/
  | errWrongArityArgs (args : Term)

mutual

/-- Size of a term, bounding the recursion depth of a ground
unification. -/
def termSize : Term → Nat
  | .compound _ as => 1 + termSizeList as
  | _ => 1

def termSizeList : List Term → Nat
  | [] => 0
  | a :: as => termSize a + termSizeList as

end

/-- Structural-unification equality used by `xrOffset` to deduplicate
`xrTable` entries (`r.Unify(o, false)`).  All entries are ground
constants or procedure indicators, so the heap is irrelevant and the
sum of the sizes bounds the recursion depth. -/
def xrEq (r o : Term) : Bool :=
  (unify0 (termSize r + termSize o) r o false []).2

/-- First index of `c.xrTable` unifying with `o`. -/
def xrFind (xs : List Term) (o : Term) : Option Nat :=
  match xs with
  | [] => none
  | x :: rest =>
    if xrEq x o then some 0 else (xrFind rest o).map (· + 1)

/-- Model of `clause.xrOffset`: find or append the entry, then return its index
truncated to a byte (`byte(i)`). -/
def xrOffset (o : Term) (c : Clause) : Nat × Clause :=
  match xrFind c.xrTable o with
  | some i => (i % 256, c)
  | none => (c.xrTable.length % 256, { c with xrTable := c.xrTable ++ [o] })

/-- First index of `v` in the variable slots (identity comparison). -/
def varFind (vs : List Nat) (v : Nat) : Option Nat :=
  match vs with
  | [] => none
  | w :: rest =>
    if w = v then some 0 else (varFind rest v).map (· + 1)

/-- Model of `clause.varOffset`: find or append the slot (erasing the cosmetic
name, invisible on identities), then return its index truncated to a
byte (`byte(i)`). -/
def varOffset (v : Nat) (c : Clause) : Nat × Clause :=
  match varFind c.vars v with
  | some i => (i % 256, c)
  | none => (c.vars.length % 256, { c with vars := c.vars ++ [v] })

mutual

/-- Model of `clause.compileArg`. -/
def compileArg : Term → Clause → Except PErr Clause
  | .var v, c =>
    let (i, c1) := varOffset v c
    .ok { c1 with bytecode := c1.bytecode ++ [opVar, i] }
  | .float x, c =>
    let (i, c1) := xrOffset (.float x) c
    .ok { c1 with bytecode := c1.bytecode ++ [opConst, i] }
  | .int n, c =>
    let (i, c1) := xrOffset (.int n) c
    .ok { c1 with bytecode := c1.bytecode ++ [opConst, i] }
  | .atom a, c =>
    let (i, c1) := xrOffset (.atom a) c
    .ok { c1 with bytecode := c1.bytecode ++ [opConst, i] }
  | .compound f as, c =>
    let (i, c1) := xrOffset (.pind f (Int.ofNat as.length)) c
    match compileArgList as { c1 with bytecode := c1.bytecode ++ [opFunctor, i] } with
    | .error e => .error e
    | .ok c2 => .ok { c2 with bytecode := c2.bytecode ++ [opPop] }
  | a, _ => .error (.systemErrorArg a)

/-- The `for _, a := range args` loops of `compileClause`,
`compilePred` and `compileArg`. -/
def compileArgList : List Term → Clause → Except PErr Clause
  | [], c => .ok c
  | a :: as, c =>
    match compileArg a c with
    | .error e => .error e
    | .ok c1 => compileArgList as c1

end

/-- Model of `clause.compilePred`: compile one goal. -/
def compilePred : Term → Clause → Except PErr Clause
  | .atom p, c =>
    let (i, c1) := xrOffset (.pind p 0) c
    .ok { c1 with bytecode := c1.bytecode ++ [opCall, i] }
  | .compound f as, c =>
    match compileArgList as c with
    | .error e => .error e
    | .ok c1 =>
      let (i, c2) := xrOffset (.pind f (Int.ofNat as.length)) c1
      .ok { c2 with bytecode := c2.bytecode ++ [opCall, i] }
  | p, _ => .error (.typeErrorCallable p)

/-- The head switch of `clause.compileClause`: an Atom head emits
nothing, a Compound head compiles each argument, anything else is a
callable type error. -/
def compileHead : Term → Clause → Except PErr Clause
  | .atom _, c => .ok c
  | .compound _ as, c => compileArgList as c
  | h, _ => .error (.typeErrorCallable h)

/-- The body loop of `clause.compileClause`: walk the right-leaning
`','/2` spine, compiling each conjunct as a goal, then the final term. -/
def compileBody : Term → Clause → Except PErr Clause
  | .compound "," [g, rest], c =>
    match compilePred g c with
    | .error e => .error e
    | .ok c1 => compileBody rest c1
  | t, c => compilePred t c

/-- Model of `clause.compileClause`: head, then (for a rule) `enter` and the
body goals, then `exit`. -/
def compileClause (head : Term) (body : Option Term) (c : Clause) : Except PErr Clause :=
  match compileHead head c with
  | .error e => .error e
  | .ok c1 =>
    match body with
    | none => .ok { c1 with bytecode := c1.bytecode ++ [opExit] }
    | some b =>
      match compileBody b { c1 with bytecode := c1.bytecode ++ [opEnter] } with
      | .error e => .error e
      | .ok c2 => .ok { c2 with bytecode := c2.bytecode ++ [opExit] }

/-! ## The abstract machine

The Go code builds `Promise`s out of closures (`Delay(func() Promise …)`).
The embedding defunctionalizes them: each closure shape that occurs in
the source becomes a constructor of `Thunk` (for delayed computations)
or `Cont` (for continuations), and `forceThunk`/`runCont` below give
each constructor the body of the corresponding closure.  Allocation of
fresh `Variable` cells becomes a counter in the machine state. -/

/-- A procedure of the procedure table: a list of compiled clauses, or
one of the six host-predicate wrappers `predicate0` … `predicate5`
(the host function itself is opaque and named by an identifier). -/
inductive Procedure where
  | clauses (cs : List Clause)
  | pred0 (fid : Nat)
  | pred1 (fid : Nat)
  | pred2 (fid : Nat)
  | pred3 (fid : Nat)
  | pred4 (fid : Nat)
  | pred5 (fid : Nat)

/-- Defunctionalized continuations (`k func() Promise`). -/
inductive Cont where
  /-- Terminal continuation `Done`. -/
  | done
  /-- The continuation built by the `call` instruction: allocate one
  fresh variable `v` and delay `exec(pc, xr, vars, k, &v, &v)`. -/
  | execAfter (pc : List Nat) (xr : List Term) (vars : List Nat) (k : Cont)
  /-- The continuation passed to a host function by `predicateN.Call`:
  run the single-instruction program `[opExit]` with continuation `k`. -/
  | hostExit (k : Cont)

mutual

/-- The result of forcing one step: `Bool`, `Error`, a Go panic, a
`Delay` over defunctionalized thunks, or the (unevaluated) application
of a host function to its argument variables and continuation. -/
inductive Promise where
  | bool (b : Bool)
  | error (e : PErr)
  | panicked (msg : String)
  | delay (ts : List Thunk)
  | hostCall (fid : Nat) (vs : List Term) (k : Cont)

/-- Defunctionalized delayed computations, one constructor per
`Delay(func() Promise { … })` closure of the source. -/
inductive Thunk where
  /-- Thunk of `arrive`, `Delay(func() Promise ...)`: call procedure `p` with `args` and `k`. -/
  | callProc (p : Procedure) (args : Term) (k : Cont)
  /-- The `call` instruction's `Delay(func() Promise { return e.arrive(pf, astack, …) })`. -/
  | arriveT (pi : String × Int) (astack : Term) (k : Cont)
  /-- The delayed `exec` of `Cont.execAfter`. -/
  | execT (pc : List Nat) (xr : List Term) (vars : List Nat) (k : Cont) (args astack : Term)
  /-- One alternative `ks[i]` of `clauses.Call`: reset the snapshot,
  allocate fresh slots, execute the clause. -/
  | alternative (a : List Nat) (c : Clause) (args : Term) (k : Cont)
  /-- The `exit` instruction's `Delay(k)`. -/
  | runK (k : Cont)

end

/-- Machine state: the mutable heap of `Ref` cells plus a counter
allocating identities for fresh `Variable` cells (`var v Variable`).
Identities below `fresh` are in use. -/
structure St where
  env : Env
  fresh : Nat

/-- Allocate one fresh variable cell. -/
def alloc (σ : St) : Nat × St :=
  (σ.fresh, { σ with fresh := σ.fresh + 1 })

/-- Allocate `n` fresh variable cells. -/
def allocN : Nat → St → List Nat × St
  | 0, σ => ([], σ)
  | n + 1, σ =>
    let (v, σ1) := alloc σ
    let (vs, σ2) := allocN n σ1
    (v :: vs, σ2)

/-- Model of `Engine.exec`: the bytecode interpreter.  `uf` is the unification
fuel (the Go unification recurses through `Ref` chains without a
structural bound).  The `functor` case uses the `Functor`/`Univ`
builtins, whose files are not under src/; that case is modelled from
the spec (§4.3): unify `args` with `[A|Arest]`, require `xr[i]` to be
a procedure indicator `f/n`, unify `A` with a compound of functor `f`
and `n` fresh argument variables, push `Arest` on `astack`, and set
`args` to that compound's argument list.  Out-of-range table accesses
and operand bytes past the end of the tape are Go panics. -/
def exec (uf : Nat) : List Nat → List Term → List Nat → Cont → Term → Term → St → St × Promise
  | [], _, _, _, _, _, σ => (σ, .error .errNonExitEnd)
  | 0 :: rest, xr, vars, k, args, astack, σ => exec uf rest xr vars k args astack σ
  | 4 :: i :: rest, xr, vars, k, args, astack, σ =>
    match xr.get? i with
    | none => (σ, .panicked "index out of range")
    | some x =>
      let (a, σ1) := alloc σ
      match unify0 uf args (.compound "." [x, .var a]) false σ1.env with
      | (env2, false) => ({ σ1 with env := env2 }, .bool false)
      | (env2, true) => exec uf rest xr vars k (.var a) astack { σ1 with env := env2 }
  | 5 :: i :: rest, xr, vars, k, args, astack, σ =>
    match vars.get? i with
    | none => (σ, .panicked "index out of range")
    | some v =>
      let (a, σ1) := alloc σ
      match unify0 uf args (.compound "." [.var v, .var a]) false σ1.env with
      | (env2, false) => ({ σ1 with env := env2 }, .bool false)
      | (env2, true) => exec uf rest xr vars k (.var a) astack { σ1 with env := env2 }
  | 6 :: i :: rest, xr, vars, k, args, astack, σ =>
    match xr.get? i with
    | none => (σ, .panicked "index out of range")
    | some x =>
      let (arg, σ1) := alloc σ
      let (arest, σ2) := alloc σ1
      match unify0 uf args (.compound "." [.var arg, .var arest]) false σ2.env with
      | (env2, false) => ({ σ2 with env := env2 }, .bool false)
      | (env2, true) =>
        match x with
        | .pind f n =>
          let (ws, σ3) := allocN n.toNat { σ2 with env := env2 }
          match unify0 uf (.var arg) (.compound f (ws.map Term.var)) false σ3.env with
          | (env3, false) => ({ σ3 with env := env3 }, .bool false)
          | (env3, true) =>
            exec uf rest xr vars k (mkList (ws.map Term.var))
              (.compound "." [.var arest, astack]) { σ3 with env := env3 }
        | _ => ({ σ2 with env := env2 }, .error .errNotPrincipalFunctor)
  | 7 :: rest, xr, vars, k, args, astack, σ =>
    match unify0 uf args emptyList false σ.env with
    | (env1, false) => ({ σ with env := env1 }, .bool false)
    | (env1, true) =>
      let (a, σ1) := alloc { σ with env := env1 }
      let (arest, σ2) := alloc σ1
      match unify0 uf astack (.compound "." [.var a, .var arest]) false σ2.env with
      | (env2, false) => ({ σ2 with env := env2 }, .bool false)
      | (env2, true) => exec uf rest xr vars k (.var a) (.var arest) { σ2 with env := env2 }
  | 1 :: rest, xr, vars, k, args, astack, σ =>
    match unify0 uf args emptyList false σ.env with
    | (env1, false) => ({ σ with env := env1 }, .bool false)
    | (env1, true) =>
      match unify0 uf astack emptyList false env1 with
      | (env2, false) => ({ σ with env := env2 }, .bool false)
      | (env2, true) =>
        let (v, σ1) := alloc { σ with env := env2 }
        exec uf rest xr vars k (.var v) (.var v) σ1
  | 2 :: i :: rest, xr, vars, k, args, astack, σ =>
    match xr.get? i with
    | none => (σ, .panicked "index out of range")
    | some x =>
      match unify0 uf args emptyList false σ.env with
      | (env1, false) => ({ σ with env := env1 }, .bool false)
      | (env1, true) =>
        match x with
        | .pind f n =>
          ({ σ with env := env1 },
           .delay [.arriveT (f, n) astack (.execAfter rest xr vars k)])
        | _ => ({ σ with env := env1 }, .error .errNotPrincipalFunctor)
  | 3 :: _, _, _, k, _, _, σ => (σ, .delay [.runK k])
  | op :: _, _, _, _, _, _, σ =>
    if op = 2 || op = 4 || op = 5 || op = 6 then
      (σ, .panicked "index out of range")
    else
      (σ, .error (.errUnknownOpcode op))

/-- Interpretation of the defunctionalized continuations. -/
def runCont (uf : Nat) : Cont → St → St × Promise
  | .done, σ => (σ, .bool true)
  | .execAfter pc xr vars k, σ =>
    let (v, σ1) := alloc σ
    (σ1, .delay [.execT pc xr vars k (.var v) (.var v)])
  | .hostExit k, σ => exec uf [opExit] [] [] k .nilt .nilt σ

/-- Model of `clauses.Call`: an empty clause list fails immediately; otherwise
take the pre-activation snapshot of the call arguments and delay one
alternative per clause, in source order. -/
def clausesCall (uf : Nat) (cs : List Clause) (args : Term) (k : Cont) (σ : St) :
    St × Promise :=
  match cs with
  | [] => (σ, .bool false)
  | _ =>
    let a := newAssignment uf args σ.env
    (σ, .delay (cs.map (fun c => .alternative a c args k)))

/-- Model of `predicate0.Call`. -/
def predicate0Call (uf fid : Nat) (args : Term) (k : Cont) (σ : St) : St × Promise :=
  match unify0 uf args (mkList []) false σ.env with
  | (env1, false) => ({ σ with env := env1 }, .error .errWrongArity)
  | (env1, true) => ({ σ with env := env1 }, .hostCall fid [] (.hostExit k))

/-- Model of `predicate1.Call`. -/
def predicate1Call (uf fid : Nat) (args : Term) (k : Cont) (σ : St) : St × Promise :=
  let v1 : Term := .var σ.fresh
  let σ0 : St := { σ with fresh := σ.fresh + 1 }
  match unify0 uf args (mkList [v1]) false σ0.env with
  | (env1, false) => ({ σ0 with env := env1 }, .error (.errWrongArityArgs args))
  | (env1, true) => ({ σ0 with env := env1 }, .hostCall fid [v1] (.hostExit k))

/-- Model of `predicate2.Call`. -/
def predicate2Call (uf fid : Nat) (args : Term) (k : Cont) (σ : St) : St × Promise :=
  let v1 : Term := .var σ.fresh
  let v2 : Term := .var (σ.fresh + 1)
  let σ0 : St := { σ with fresh := σ.fresh + 2 }
  match unify0 uf args (mkList [v1, v2]) false σ0.env with
  | (env1, false) => ({ σ0 with env := env1 }, .error .errWrongArity)
  | (env1, true) => ({ σ0 with env := env1 }, .hostCall fid [v1, v2] (.hostExit k))

/-- Model of `predicate3.Call`. -/
def predicate3Call (uf fid : Nat) (args : Term) (k : Cont) (σ : St) : St × Promise :=
  let v1 : Term := .var σ.fresh
  let v2 : Term := .var (σ.fresh + 1)
  let v3 : Term := .var (σ.fresh + 2)
  let σ0 : St := { σ with fresh := σ.fresh + 3 }
  match unify0 uf args (mkList [v1, v2, v3]) false σ0.env with
  | (env1, false) => ({ σ0 with env := env1 }, .error .errWrongArity)
  | (env1, true) => ({ σ0 with env := env1 }, .hostCall fid [v1, v2, v3] (.hostExit k))

/-- Model of `predicate4.Call`. -/
def predicate4Call (uf fid : Nat) (args : Term) (k : Cont) (σ : St) : St × Promise :=
  let v1 : Term := .var σ.fresh
  let v2 : Term := .var (σ.fresh + 1)
  let v3 : Term := .var (σ.fresh + 2)
  let v4 : Term := .var (σ.fresh + 3)
  let σ0 : St := { σ with fresh := σ.fresh + 4 }
  match unify0 uf args (mkList [v1, v2, v3, v4]) false σ0.env with
  | (env1, false) => ({ σ0 with env := env1 }, .error .errWrongArity)
  | (env1, true) => ({ σ0 with env := env1 }, .hostCall fid [v1, v2, v3, v4] (.hostExit k))

/-- Model of `predicate5.Call`. -/
def predicate5Call (uf fid : Nat) (args : Term) (k : Cont) (σ : St) : St × Promise :=
  let v1 : Term := .var σ.fresh
  let v2 : Term := .var (σ.fresh + 1)
  let v3 : Term := .var (σ.fresh + 2)
  let v4 : Term := .var (σ.fresh + 3)
  let v5 : Term := .var (σ.fresh + 4)
  let σ0 : St := { σ with fresh := σ.fresh + 5 }
  match unify0 uf args (mkList [v1, v2, v3, v4, v5]) false σ0.env with
  | (env1, false) => ({ σ0 with env := env1 }, .error .errWrongArity)
  | (env1, true) => ({ σ0 with env := env1 }, .hostCall fid [v1, v2, v3, v4, v5] (.hostExit k))

/-- Model of the `procedure.Call` dispatch over the implementations of the
`procedure` interface. -/
def procCall (uf : Nat) (p : Procedure) (args : Term) (k : Cont) (σ : St) : St × Promise :=
  match p with
  | .clauses cs => clausesCall uf cs args k σ
  | .pred0 fid => predicate0Call uf fid args k σ
  | .pred1 fid => predicate1Call uf fid args k σ
  | .pred2 fid => predicate2Call uf fid args k σ
  | .pred3 fid => predicate3Call uf fid args k σ
  | .pred4 fid => predicate4Call uf fid args k σ
  | .pred5 fid => predicate5Call uf fid args k σ

/-! ## Procedure dispatch, unknown handling and registration -/

/-- Model of `procedureIndicator`: the dispatch key. -/
structure PI where
  name : String
  arity : Int
deriving DecidableEq

/-- The `unknownAction` values (`iota`: error, fail, warning). -/
def unknownError : Nat := 0
def unknownFail : Nat := 1
def unknownWarning : Nat := 2

/-- The fields of `Engine` the core claims touch: the procedure table
(`nil` map modelled as `none`) and the unknown-action setting.  The
zero value has a nil table and `unknown == unknownError`. -/
structure Engine where
  procedures : Option (List (PI × Procedure))
  unknown : Nat

def zeroEngine : Engine := { procedures := none, unknown := 0 }

/-- Go map read (a nil map reads as empty). -/
def mapGet : List (PI × Procedure) → PI → Option Procedure
  | [], _ => none
  | p :: rest, pi => if p.1 = pi then some p.2 else mapGet rest pi

/-- Go map write (replace or append). -/
def mapPut : List (PI × Procedure) → PI → Procedure → List (PI × Procedure)
  | [], pi, pr => [(pi, pr)]
  | p :: rest, pi, pr =>
    if p.1 = pi then (pi, pr) :: rest else p :: mapPut rest pi pr

/-- Lookup in the possibly-nil procedure table. -/
def procLookup (m : Option (List (PI × Procedure))) (pi : PI) : Option Procedure :=
  match m with
  | none => none
  | some t => mapGet t pi

/-- The shared body of `Register0` … `Register5`: allocate the table
if it is nil, then store the wrapped predicate under `name/arity`. -/
def registerProc (e : Engine) (pi : PI) (pr : Procedure) : Engine :=
  match e.procedures with
  | none => { e with procedures := some (mapPut [] pi pr) }
  | some t => { e with procedures := some (mapPut t pi pr) }

def register0 (e : Engine) (name : String) (fid : Nat) : Engine :=
  registerProc e { name := name, arity := 0 } (.pred0 fid)

def register1 (e : Engine) (name : String) (fid : Nat) : Engine :=
  registerProc e { name := name, arity := 1 } (.pred1 fid)

def register2 (e : Engine) (name : String) (fid : Nat) : Engine :=
  registerProc e { name := name, arity := 2 } (.pred2 fid)

def register3 (e : Engine) (name : String) (fid : Nat) : Engine :=
  registerProc e { name := name, arity := 3 } (.pred3 fid)

def register4 (e : Engine) (name : String) (fid : Nat) : Engine :=
  registerProc e { name := name, arity := 4 } (.pred4 fid)

def register5 (e : Engine) (name : String) (fid : Nat) : Engine :=
  registerProc e { name := name, arity := 5 } (.pred5 fid)

/-- Model of `Engine.arrive`.  The `logrus … Warn` side effect of the warning
branch becomes the second component: the list of warning records
emitted (each records the unknown procedure's indicator).  The Go
switch falls through from `unknownWarning` to `unknownFail`. -/
def arrive (e : Engine) (pi : PI) (args : Term) (k : Cont) : Promise × List PI :=
  match procLookup e.procedures pi with
  | some p => (.delay [.callProc p args k], [])
  | none =>
    if e.unknown = unknownError then
      (.error (.existenceErrorProcedure (.compound "/" [.atom pi.name, .int pi.arity])), [])
    else if e.unknown = unknownWarning then
      (.bool false, [pi])
    else if e.unknown = unknownFail then
      (.bool false, [])
    else
      (.error (.systemErrorUnknown e.unknown), [])

/-- Interpretation of the defunctionalized thunks: the body of each
`Delay` closure of the source.  The last component is the warning log
(only `arrive` writes to it). -/
def forceThunk (e : Engine) (uf : Nat) (t : Thunk) (σ : St) : St × Promise × List PI :=
  match t with
  | .callProc p args k =>
    let (σ1, pr) := procCall uf p args k σ
    (σ1, pr, [])
  | .arriveT pi astack k =>
    let (pr, w) := arrive e { name := pi.1, arity := pi.2 } astack k
    (σ, pr, w)
  | .execT pc xr vars k args astack =>
    let (σ1, pr) := exec uf pc xr vars k args astack σ
    (σ1, pr, [])
  | .alternative a c args k =>
    let env1 := assignmentReset a σ.env
    let (vs, σ1) := allocN c.vars.length { σ with env := env1 }
    let (σ2, pr) := exec uf c.bytecode c.xrTable vs k args emptyList σ1
    (σ2, pr, [])
  | .runK k =>
    let (σ1, pr) := runCont uf k σ
    (σ1, pr, [])

/-! ## Spec-side formulations used for refinement statements -/

/-- Follows the spec's words (§4.3, host-built predicate dispatch):
"unify `args` with a list of the required length of fresh variables;
invoke the host function with those variables and a continuation `k'`
that executes the single-instruction program `[exit]` …  Wrong arity
is a hard error, not a failure."  `failErr` is the error carried in
the wrong-arity case. -/
def hostDispatchSpec (uf n fid : Nat) (args : Term) (k : Cont) (σ : St) (failErr : PErr) :
    St × Promise :=
  let (vs, σ1) := allocN n σ
  let ts := vs.map Term.var
  match unify0 uf args (mkList ts) false σ1.env with
  | (env1, false) => ({ σ1 with env := env1 }, .error failErr)
  | (env1, true) => ({ σ1 with env := env1 }, .hostCall fid ts (.hostExit k))

/-- Follows the spec's words (§4.2, body compilation): the goals of
the right-leaning `','/2` conjunction spine, in order; a non-`','/2`
term is a degenerate spine of length one. -/
def spine : Term → List Term
  | .compound "," [g, rest] => g :: spine rest
  | t => [t]

/-- Follows the spec's words: compile a list of goals in left-to-right
order, threading the clause under construction. -/
def compileGoals : List Term → Clause → Except PErr Clause
  | [], c => .ok c
  | g :: gs, c =>
    match compilePred g c with
    | .error e => .error e
    | .ok c1 => compileGoals gs c1

end P0

namespace PE

/-!
Model of the newer `engine` package (src/engine/compound.go), whose
unification threads an explicit persistent environment.  Only
`Compound.Unify` is under src/; `Env.Resolve`, `Variable.Unify` and
the constant cases are modelled from the spec (§4.1).
-/

/-- Terms of the `engine` package.  The `float` payload stands for the
bit pattern of the Go `float64`. -/
inductive Term where
  | atom (s : String)
  | int (n : Int)
  | float (bits : Nat)
  | var (id : Nat)
  | compound (f : String) (args : List Term)

/-- The persistent binding environment, as an association list. -/
abbrev Env : Type := List (Nat × Term)

def lookupEnv : Env → Nat → Option Term
  | [], _ => none
  | p :: rest, v => if p.1 = v then some p.2 else lookupEnv rest v

def bindVar (env : Env) (v : Nat) (t : Term) : Env := (v, t) :: env

def resolveN : Nat → Env → Term → Term
  | 0, _, t => t
  | fuel + 1, env, t =>
    match t with
    | .var v =>
      match lookupEnv env v with
      | some r => resolveN fuel env r
      | none => t
    | _ => t

/-- Modelled from the spec: `Env.Resolve` (src/engine does not contain
env.go).  "follows bindings until reaching a non-variable or an
unbound variable"; the environment length bounds a non-cyclic chain. -/
def resolve (env : Env) (t : Term) : Term := resolveN (env.length + 1) env t

/-- Occurs check ("the other side contains that variable"). -/
def occurs : Nat → Nat → Term → Env → Bool
  | 0, _, _, _ => false
  | fuel + 1, v, t, env =>
    match resolve env t with
    | .var w => v = w
    | .compound _ as => as.any (fun a => occurs fuel v a env)
    | _ => false

/-- The `for i := range c.Args` loop of `Compound.Unify`,
parameterized by the unifier for one pair: unify the argument pairs
left-to-right, threading the environment; the first failure returns
immediately. -/
def unifyArgs (u : Term → Term → Env → Env × Bool) :
    List Term → List Term → Env → Env × Bool
  | [], [], env => (env, true)
  | a :: as, b :: bs, env =>
    match u a b env with
    | (env1, true) => unifyArgs u as bs env1
    | (env1, false) => (env1, false)
  | _, _, env => (env, false)

/-- Unification of the `engine` package.  The compound-versus-anything
case is translated from `Compound.Unify` (src/engine/compound.go
lines 15–37): resolve `t`; a compound must have the same functor and
the same number of arguments and the arguments unify left-to-right
threading the environment, any failure short-circuiting; a variable
delegates to `Variable.Unify`; anything else fails without touching
the environment.  `Variable.Unify`, `Env.Resolve` and the constant
cases are not under src/ and are modelled from the spec (§4.1): a
(resolved) variable binds to the (resolved) other side, subject to the
occurs check; constants need exact equality of the same kind.  Go
method dispatch on a receiver resolves the receiver first (a bound
`Variable` receiver forwards to its binding), so both sides are
resolved up front. -/
def unify : Nat → Term → Term → Bool → Env → Env × Bool
  | 0, _, _, _, env => (env, false)
  | fuel + 1, s, t, oc, env =>
    match resolve env s, resolve env t with
    | .var v, .var w =>
      if v = w then (env, true) else (bindVar env v (.var w), true)
    | .var v, t' =>
      if oc && occurs fuel v t' env then (env, false) else (bindVar env v t', true)
    | s', .var w =>
      if oc && occurs fuel w s' env then (env, false) else (bindVar env w s', true)
    | .atom a, .atom b => (env, decide (a = b))
    | .int m, .int n => (env, decide (m = n))
    | .float x, .float y => (env, decide (x = y))
    | .compound f as, .compound g bs =>
      if f = g then
        if as.length = bs.length then
          unifyArgs (fun a b env => unify fuel a b oc env) as bs env
        else (env, false)
      else (env, false)
    | _, _ => (env, false)

end PE

/-! ## Claim theorems -/

namespace P0

/-- C1: `arrive(pi, args, k)` on an absent indicator follows the
unknown-action setting — `error` yields an error Promise carrying
`existence_error(procedure, name/arity)`; `fail` yields false with no
warning; `warning` emits exactly one warning record and yields false
with no error; a present indicator yields a `Delay` that calls the
procedure with `args` and `k`. -/
theorem arrive_unknown_policy (e : Engine) (pi : PI) (args : Term) (k : Cont) :
    (procLookup e.procedures pi = none → e.unknown = unknownError →
      arrive e pi args k =
        (.error (.existenceErrorProcedure (.compound "/" [.atom pi.name, .int pi.arity])), [])) ∧
    (procLookup e.procedures pi = none → e.unknown = unknownFail →
      arrive e pi args k = (.bool false, [])) ∧
    (procLookup e.procedures pi = none → e.unknown = unknownWarning →
      arrive e pi args k = (.bool false, [pi]) ∧ (arrive e pi args k).2.length = 1) ∧
    (∀ p, procLookup e.procedures pi = some p →
      arrive e pi args k = (.delay [.callProc p args k], [])) := by
  refine ⟨?_, ?_, ?_, ?_⟩
  · intro h hu
    simp [arrive, h, hu, unknownError]
  · intro h hu
    simp [arrive, h, hu, unknownFail, unknownError, unknownWarning]
  · intro h hu
    constructor
    · simp [arrive, h, hu, unknownWarning, unknownError]
    · simp [arrive, h, hu, unknownWarning, unknownError]
  · intro p h
    simp [arrive, h]

/-- Witness for C1: the concrete unknown procedure `undef/0` under
each of the three settings and a present procedure. -/
theorem arrive_unknown_policy_instance :
    arrive { procedures := none, unknown := 2 } { name := "undef", arity := 0 } emptyList .done =
      (.bool false, [{ name := "undef", arity := 0 }]) ∧
    (arrive { procedures := none, unknown := 2 } { name := "undef", arity := 0 } emptyList .done).2.length = 1 :=
  (arrive_unknown_policy { procedures := none, unknown := 2 }
    { name := "undef", arity := 0 } emptyList .done).2.2.1 rfl rfl

/-- C9: calling a user-defined procedure with an empty clause list
returns `false` at once — the state (hence the environment) is
untouched, no snapshot is taken, no error is produced and no delayed
alternative (in particular not the continuation) is created. -/
theorem clauses_call_empty (uf : Nat) (args : Term) (k : Cont) (σ : St) :
    procCall uf (.clauses []) args k σ = (σ, .bool false) := rfl

/-- C10: registering a host predicate of any arity 0..5 on the
zero-value Engine (nil procedure table) allocates the table, and
`arrive` on the registered `(name, arity)` indicator then dispatches
the predicate. -/
theorem register_zero_engine_dispatch (name : String) (fid : Nat) (args : Term) (k : Cont) :
    ((register0 zeroEngine name fid).procedures ≠ none ∧
      arrive (register0 zeroEngine name fid) { name := name, arity := 0 } args k =
        (.delay [.callProc (.pred0 fid) args k], [])) ∧
    ((register1 zeroEngine name fid).procedures ≠ none ∧
      arrive (register1 zeroEngine name fid) { name := name, arity := 1 } args k =
        (.delay [.callProc (.pred1 fid) args k], [])) ∧
    ((register2 zeroEngine name fid).procedures ≠ none ∧
      arrive (register2 zeroEngine name fid) { name := name, arity := 2 } args k =
        (.delay [.callProc (.pred2 fid) args k], [])) ∧
    ((register3 zeroEngine name fid).procedures ≠ none ∧
      arrive (register3 zeroEngine name fid) { name := name, arity := 3 } args k =
        (.delay [.callProc (.pred3 fid) args k], [])) ∧
    ((register4 zeroEngine name fid).procedures ≠ none ∧
      arrive (register4 zeroEngine name fid) { name := name, arity := 4 } args k =
        (.delay [.callProc (.pred4 fid) args k], [])) ∧
    ((register5 zeroEngine name fid).procedures ≠ none ∧
      arrive (register5 zeroEngine name fid) { name := name, arity := 5 } args k =
        (.delay [.callProc (.pred5 fid) args k], [])) := by
  refine ⟨⟨?_, ?_⟩, ⟨?_, ?_⟩, ⟨?_, ?_⟩, ⟨?_, ?_⟩, ⟨?_, ?_⟩, ⟨?_, ?_⟩⟩ <;>
    simp [register0, register1, register2, register3, register4, register5,
      registerProc, zeroEngine, arrive, procLookup, mapGet, mapPut]

/-- C8: an opcode outside the defined set 0..7 makes `exec` return an
error Promise carrying the engine-internal unknown-opcode error, and
running off the end of the tape without `exit` returns the
non-exit-end error Promise — in both situations the result is an error
Promise, not `true`, not `false`, and not a Go panic. -/
theorem exec_internal_errors (uf op : Nat) (rest : List Nat) (xr : List Term)
    (vars : List Nat) (k : Cont) (args astack : Term) (σ : St) :
    (8 ≤ op →
      exec uf (op :: rest) xr vars k args astack σ = (σ, .error (.errUnknownOpcode op))) ∧
    exec uf [] xr vars k args astack σ = (σ, .error .errNonExitEnd) := by
  constructor
  · intro h
    obtain ⟨m, rfl⟩ : ∃ m, op = m + 8 := ⟨op - 8, by omega⟩
    show exec uf ((m + 8) :: rest) xr vars k args astack σ = _
    rw [show m + 8 = (m + 7) + 1 from rfl]
    simp [exec]
  · rfl

/-! Helper lemmas for the trail-reset claim. -/

theorem lookupEnv_eq_none (env : Env) (v : Nat) (h : lookupEnv env v = none) :
    ∀ p ∈ env, p.1 ≠ v := by
  induction env with
  | nil => intro p hp; cases hp
  | cons q rest ih =>
    intro p hp
    by_cases hq : q.1 = v
    · simp [lookupEnv, hq] at h
    · rcases List.mem_cons.1 hp with hp | hp
      · exact hp ▸ hq
      · exact ih (by simpa [lookupEnv, hq] using h) p hp

theorem addVars_mem (fuel : Nat) :
    ∀ (env : Env) (t : Term) (acc : List Nat) (v : Nat),
      v ∈ addVars fuel env t acc → v ∈ acc ∨ lookupEnv env v = none := by
  induction fuel with
  | zero =>
    intro env t acc v h
    exact .inl h
  | succ fuel ih =>
    intro env t acc v h
    match t with
    | .var w =>
      cases hl : lookupEnv env w with
      | some r =>
        rw [addVars, hl] at h
        exact ih env r acc v h
      | none =>
        rw [addVars, hl] at h
        by_cases hw : w ∈ acc
        · rw [if_pos hw] at h
          exact .inl h
        · rw [if_neg hw] at h
          rcases List.mem_append.1 h with h' | h'
          · exact .inl h'
          · right
            rwa [List.mem_singleton.1 h']
    | .compound f args =>
      rw [addVars] at h
      revert acc h
      induction args with
      | nil =>
        intro acc h
        exact .inl h
      | cons a rest ihl =>
        intro acc h
        rw [List.foldl_cons] at h
        rcases ihl (addVars fuel env a acc) h with h' | h'
        · rcases ih env a acc v h' with h'' | h''
          · exact .inl h''
          · exact .inr h''
        · exact .inr h'
    | .atom s => exact .inl h
    | .int n => exact .inl h
    | .float b => exact .inl h
    | .pind n a => exact .inl h
    | .nilt => exact .inl h

theorem mem_removeKey (env : Env) (v : Nat) (p : Nat × Term) :
    p ∈ removeKey env v ↔ p ∈ env ∧ p.1 ≠ v := by
  induction env with
  | nil => simp [removeKey]
  | cons q rest ih =>
    by_cases hq : q.1 = v
    · rw [removeKey, if_pos hq, ih]
      constructor
      · rintro ⟨hp, hv⟩
        exact ⟨List.mem_cons.2 (.inr hp), hv⟩
      · rintro ⟨hp, hv⟩
        rcases List.mem_cons.1 hp with hp | hp
        · exact absurd (by rw [hp]; exact hq) hv
        · exact ⟨hp, hv⟩
    · rw [removeKey, if_neg hq]
      constructor
      · intro hp
        rcases List.mem_cons.1 hp with hp | hp
        · exact ⟨List.mem_cons.2 (.inl hp), by rw [hp]; exact hq⟩
        · rcases ih.1 hp with ⟨h1, h2⟩
          exact ⟨List.mem_cons.2 (.inr h1), h2⟩
      · rintro ⟨hp, hv⟩
        rcases List.mem_cons.1 hp with hp | hp
        · exact hp ▸ List.mem_cons_self q _
        · exact List.mem_cons_of_mem q (ih.2 ⟨hp, hv⟩)

theorem removeKey_append (xs ys : Env) (v : Nat) :
    removeKey (xs ++ ys) v = removeKey xs v ++ removeKey ys v := by
  induction xs with
  | nil => rfl
  | cons q rest ih =>
    by_cases hq : q.1 = v
    · simp [removeKey, hq, ih]
    · simp [removeKey, hq, ih]

theorem removeKey_of_not_key (env : Env) (v : Nat) (h : ∀ p ∈ env, p.1 ≠ v) :
    removeKey env v = env := by
  induction env with
  | nil => rfl
  | cons q rest ih =>
    rw [removeKey, if_neg (h q (List.mem_cons_self q rest)), ih]
    intro p hp
    exact h p (List.mem_cons_of_mem q hp)

theorem assignmentReset_append (a : List Nat) :
    ∀ xs ys : Env, assignmentReset a (xs ++ ys) = assignmentReset a xs ++ assignmentReset a ys := by
  induction a with
  | nil => intro xs ys; rfl
  | cons v rest ih =>
    intro xs ys
    show assignmentReset rest (removeKey (xs ++ ys) v) = _
    rw [removeKey_append, ih]
    rfl

theorem assignmentReset_eq_nil (a : List Nat) :
    ∀ δ : Env, (∀ p ∈ δ, p.1 ∈ a) → assignmentReset a δ = [] := by
  induction a with
  | nil =>
    intro δ h
    cases δ with
    | nil => rfl
    | cons p rest => exact absurd (h p (List.mem_cons_self p rest)) (by simp)
  | cons v rest ih =>
    intro δ h
    show assignmentReset rest (removeKey δ v) = []
    refine ih _ ?_
    intro p hp
    rcases (mem_removeKey δ v p).1 hp with ⟨hδ, hv⟩
    rcases List.mem_cons.1 (h p hδ) with h' | h'
    · exact absurd h' hv
    · exact h'

theorem assignmentReset_id (a : List Nat) :
    ∀ env : Env, (∀ v ∈ a, lookupEnv env v = none) → assignmentReset a env = env := by
  induction a with
  | nil => intro env _; rfl
  | cons v rest ih =>
    intro env h
    show assignmentReset rest (removeKey env v) = env
    rw [removeKey_of_not_key env v (lookupEnv_eq_none env v (h v (List.mem_cons_self v rest)))]
    exact ih env (fun w hw => h w (List.mem_cons_of_mem v hw))

theorem lookupEnv_eq_none_of_forall (env : Env) (v : Nat) (h : ∀ p ∈ env, p.1 ≠ v) :
    lookupEnv env v = none := by
  induction env with
  | nil => rfl
  | cons q rest ih =>
    rw [lookupEnv, if_neg (h q (List.mem_cons_self q rest))]
    exact ih (fun p hp => h p (List.mem_cons_of_mem q hp))

theorem mem_assignmentReset (a : List Nat) :
    ∀ (env : Env) (p : Nat × Term), p ∈ assignmentReset a env ↔ p ∈ env ∧ p.1 ∉ a := by
  induction a with
  | nil =>
    intro env p
    simp [assignmentReset]
  | cons w rest ih =>
    intro env p
    show p ∈ assignmentReset rest (removeKey env w) ↔ _
    rw [ih, mem_removeKey]
    constructor
    · rintro ⟨⟨hp, hne⟩, hnr⟩
      refine ⟨hp, ?_⟩
      intro hmem
      rcases List.mem_cons.1 hmem with h | h
      · exact hne h
      · exact hnr h
    · rintro ⟨hp, hna⟩
      exact ⟨⟨hp, fun h => hna (by rw [h]; exact List.mem_cons_self w rest)⟩,
        fun h => hna (List.mem_cons_of_mem w h)⟩

theorem lookupEnv_append (xs ys : Env) (v : Nat) (h : lookupEnv xs v = none) :
    lookupEnv (xs ++ ys) v = lookupEnv ys v := by
  induction xs with
  | nil => rfl
  | cons q rest ih =>
    by_cases hq : q.1 = v
    · rw [lookupEnv, if_pos hq] at h
      cases h
    · rw [List.cons_append, lookupEnv, if_neg hq]
      exact ih (by rwa [lookupEnv, if_neg hq] at h)

/-- C3: the pre-activation snapshot taken by `clauses.Call` and
`assignment.reset` give the next alternative the environment observed
before the first alternative was attempted.  (1) Every snapshot
variable is unbound at snapshot time.  (2) Whatever environment a
failed alternative leaves behind — including bindings of the fresh
list-tail variables the head instructions allocate — after the reset
every snapshot variable reads unbound again, exactly as at
pre-activation.  (3) The environment only ever grows by prepended
bindings of variables that are unbound when bound (unification never
rebinds a bound variable, and fresh variables are unbound, so every
execution extends the environment this way); for any such extension,
every binding of the pre-activation environment reads unchanged after
the reset.  Hence the bindings observable through the call arguments
are identical to the pre-activation ones. -/
theorem clause_alternative_reset (uf : Nat) (args : Term) (env0 : Env) :
    (∀ v ∈ newAssignment uf args env0, lookupEnv env0 v = none) ∧
    (∀ (env' : Env), ∀ v ∈ newAssignment uf args env0,
      lookupEnv (assignmentReset (newAssignment uf args env0) env') v = none) ∧
    (∀ δ : Env, (∀ p ∈ δ, lookupEnv env0 p.1 = none) →
      ∀ (v : Nat) (t : Term), lookupEnv env0 v = some t →
        lookupEnv (assignmentReset (newAssignment uf args env0) (δ ++ env0)) v = some t) := by
  have hub : ∀ v ∈ newAssignment uf args env0, lookupEnv env0 v = none := by
    intro v hv
    rcases addVars_mem uf env0 args [] v hv with h | h
    · cases h
    · exact h
  refine ⟨hub, ?_, ?_⟩
  · intro env' v hv
    refine lookupEnv_eq_none_of_forall _ v ?_
    intro p hp hpv
    exact ((mem_assignmentReset _ env' p).1 hp).2 (by rw [hpv]; exact hv)
  · intro δ hδ v t hv
    rw [assignmentReset_append]
    have hδn : lookupEnv (assignmentReset (newAssignment uf args env0) δ) v = none := by
      refine lookupEnv_eq_none_of_forall _ v ?_
      intro p hp hpv
      have hun := hδ p ((mem_assignmentReset _ δ p).1 hp).1
      rw [hpv, hv] at hun
      cases hun
    rw [lookupEnv_append _ _ v hδn, assignmentReset_id _ env0 hub]
    exact hv

/-- Witness for C3: the pre-activation heap binds variable 5 to `x`;
the failed alternative of a call `f(X0, X1)` bound snapshot variable 0
and the fresh list-tail variable 9.  After the reset, snapshot
variable 0 reads unbound again and variable 5 still reads `x`. -/
theorem clause_alternative_reset_instance :
    lookupEnv (assignmentReset
        (newAssignment 3 (Term.compound "f" [.var 0, .var 1]) [(5, Term.atom "x")])
        ([(9, Term.atom "[]"), (0, Term.atom "a")] ++ [(5, Term.atom "x")])) 0 = none ∧
    lookupEnv (assignmentReset
        (newAssignment 3 (Term.compound "f" [.var 0, .var 1]) [(5, Term.atom "x")])
        ([(9, Term.atom "[]"), (0, Term.atom "a")] ++ [(5, Term.atom "x")])) 5 =
      some (Term.atom "x") :=
  ⟨(clause_alternative_reset 3 (Term.compound "f" [.var 0, .var 1])
      [(5, Term.atom "x")]).2.1 ([(9, Term.atom "[]"), (0, Term.atom "a")] ++
        [(5, Term.atom "x")]) 0 (by decide),
   (clause_alternative_reset 3 (Term.compound "f" [.var 0, .var 1])
      [(5, Term.atom "x")]).2.2 [(9, Term.atom "[]"), (0, Term.atom "a")]
      (by
        intro p hp
        rcases List.mem_cons.1 hp with h | h
        · subst h
          rfl
        · rcases List.mem_cons.1 h with h | h
          · subst h
            rfl
          · cases h) 5 (Term.atom "x") rfl⟩

end P0

namespace PE

theorem resolve_compound (env : Env) (f : String) (as : List Term) :
    resolve env (.compound f as) = .compound f as := rfl

/-- C2: unifying two compounds in the `engine` package succeeds only
when the functors agree and the argument counts agree (a mismatch of
either fails, leaving the environment untouched); when they agree the
result is exactly the left-to-right unification of the argument pairs,
threading the environment, and a failing pair returns at once with the
environment as that pair left it — the remaining pairs are never
attempted (the result does not depend on them); resolving a compound
is the identity, so the resolved `t` is the compound itself. -/
theorem compound_unify_pairwise (fuel : Nat) (f g : String) (as bs : List Term)
    (oc : Bool) (env : Env) :
    (f ≠ g ∨ as.length ≠ bs.length →
      unify (fuel + 1) (.compound f as) (.compound g bs) oc env = (env, false)) ∧
    ((unify (fuel + 1) (.compound f as) (.compound g bs) oc env).2 = true →
      f = g ∧ as.length = bs.length) ∧
    resolve env (.compound g bs) = .compound g bs ∧
    (f = g → as.length = bs.length →
      unify (fuel + 1) (.compound f as) (.compound g bs) oc env =
        unifyArgs (fun a b e => unify fuel a b oc e) as bs env) ∧
    (∀ a b as' bs', as = a :: as' → bs = b :: bs' →
      unify (fuel + 1) (.compound f (a :: as')) (.compound g (b :: bs')) oc env =
        if f = g ∧ as'.length = bs'.length then
          match unify fuel a b oc env with
          | (env1, true) => unify (fuel + 1) (.compound f as') (.compound g bs') oc env1
          | (env1, false) => (env1, false)
        else (env, false)) := by
  have hmain : ∀ (as bs : List Term) (env : Env),
      unify (fuel + 1) (.compound f as) (.compound g bs) oc env =
        if f = g then
          if as.length = bs.length then
            unifyArgs (fun a b e => unify fuel a b oc e) as bs env
          else (env, false)
        else (env, false) := by
    intro as bs env
    rfl
  refine ⟨?_, ?_, rfl, ?_, ?_⟩
  · intro h
    rw [hmain]
    rcases h with h | h
    · rw [if_neg h]
    · by_cases hfg : f = g
      · rw [if_pos hfg, if_neg h]
      · rw [if_neg hfg]
  · intro h
    by_cases hfg : f = g
    · by_cases hlen : as.length = bs.length
      · exact ⟨hfg, hlen⟩
      · rw [hmain, if_pos hfg, if_neg hlen] at h
        cases h
    · rw [hmain, if_neg hfg] at h
      cases h
  · intro hfg hlen
    rw [hmain, if_pos hfg, if_pos hlen]
  · rintro a b as' bs' rfl rfl
    by_cases hok : f = g ∧ as'.length = bs'.length
    · rw [if_pos hok, hmain, if_pos hok.1,
        if_pos (by simpa using hok.2)]
      show unifyArgs (fun a b e => unify fuel a b oc e) (a :: as') (b :: bs') env = _
      rw [unifyArgs]
      rcases hu : unify fuel a b oc env with ⟨env1, ok⟩
      cases ok
      · rfl
      · show unifyArgs (fun a b e => unify fuel a b oc e) as' bs' env1 =
          unify (fuel + 1) (.compound f as') (.compound g bs') oc env1
        rw [hmain as' bs' env1, if_pos hok.1, if_pos hok.2]

    · rw [if_neg hok, hmain]
      rcases Decidable.not_and_iff_or_not.1 hok with h | h
      · rw [if_neg h]
      · by_cases hfg : f = g
        · rw [if_pos hfg, if_neg (by simpa using h)]
        · rw [if_neg hfg]

/-- Witness for C2: `f(a)` against `g(a)` fails on the functor
mismatch without touching the environment, and `f(a, X)` against
`f(a, b)` unifies pairwise, binding `X` to `b`. -/
theorem compound_unify_pairwise_instance :
    unify 3 (.compound "f" [.atom "a"]) (.compound "g" [.atom "a"]) false [] = ([], false) ∧
    unify 3 (.compound "f" [.atom "a", .var 0]) (.compound "f" [.atom "a", .atom "b"]) false [] =
      ([(0, Term.atom "b")], true) :=
  ⟨(compound_unify_pairwise 2 "f" "g" [.atom "a"] [.atom "a"] false []).1
      (.inl (by decide)),
   by
    have h := (compound_unify_pairwise 2 "f" "f" [.atom "a", .var 0]
      [.atom "a", .atom "b"] false []).2.2.2.1 rfl rfl
    rw [h]
    rfl⟩

end PE

namespace P0

/-! Helper lemmas about the compiler. -/

theorem xrOffset_fst_lt (o : Term) (c : Clause) : (xrOffset o c).1 < 256 := by
  unfold xrOffset
  split <;> exact Nat.mod_lt _ (by norm_num)

theorem xrOffset_bytecode (o : Term) (c : Clause) :
    ((xrOffset o c).2).bytecode = c.bytecode := by
  unfold xrOffset
  split <;> rfl

theorem varOffset_fst_lt (v : Nat) (c : Clause) : (varOffset v c).1 < 256 := by
  unfold varOffset
  split <;> exact Nat.mod_lt _ (by norm_num)

theorem varOffset_bytecode (v : Nat) (c : Clause) :
    ((varOffset v c).2).bytecode = c.bytecode := by
  unfold varOffset
  split <;> rfl

/-- Lemma: `compileArg` only appends to the bytecode, and every appended byte
(opcode or operand) is below 256. -/
theorem compileArg_appends :
    ∀ (t : Term) (c : Clause) (c' : Clause), compileArg t c = .ok c' →
      ∃ δ, c'.bytecode = c.bytecode ++ δ ∧ δ.all (fun b => decide (b < 256)) = true := by
  refine fun t c => @compileArg.induct
    (fun t c => ∀ c', compileArg t c = .ok c' →
      ∃ δ, c'.bytecode = c.bytecode ++ δ ∧ δ.all (fun b => decide (b < 256)) = true)
    (fun l c => ∀ c', compileArgList l c = .ok c' →
      ∃ δ, c'.bytecode = c.bytecode ++ δ ∧ δ.all (fun b => decide (b < 256)) = true)
    ?_ ?_ ?_ ?_ ?_ ?_ ?_ ?_ ?_ ?_ t c
  · intro v c i c1 hv c' h
    rw [compileArg, hv] at h
    injection h with h
    subst h
    refine ⟨[opVar, i], ?_, ?_⟩
    · have hbc : c1.bytecode = c.bytecode := by
        rw [show c1 = (varOffset v c).2 by rw [hv]]
        exact varOffset_bytecode v c
      simp [hbc]
    · have hi : i < 256 := by
        rw [show i = (varOffset v c).1 by rw [hv]]
        exact varOffset_fst_lt v c
      simp [opVar, hi]
  · intro x c i c1 hx c' h
    rw [compileArg, hx] at h
    injection h with h
    subst h
    refine ⟨[opConst, i], ?_, ?_⟩
    · have hbc : c1.bytecode = c.bytecode := by
        rw [show c1 = (xrOffset (.float x) c).2 by rw [hx]]
        exact xrOffset_bytecode _ c
      simp [hbc]
    · have hi : i < 256 := by
        rw [show i = (xrOffset (.float x) c).1 by rw [hx]]
        exact xrOffset_fst_lt _ c
      simp [opConst, hi]
  · intro n c i c1 hx c' h
    rw [compileArg, hx] at h
    injection h with h
    subst h
    refine ⟨[opConst, i], ?_, ?_⟩
    · have hbc : c1.bytecode = c.bytecode := by
        rw [show c1 = (xrOffset (.int n) c).2 by rw [hx]]
        exact xrOffset_bytecode _ c
      simp [hbc]
    · have hi : i < 256 := by
        rw [show i = (xrOffset (.int n) c).1 by rw [hx]]
        exact xrOffset_fst_lt _ c
      simp [opConst, hi]
  · intro a c i c1 hx c' h
    rw [compileArg, hx] at h
    injection h with h
    subst h
    refine ⟨[opConst, i], ?_, ?_⟩
    · have hbc : c1.bytecode = c.bytecode := by
        rw [show c1 = (xrOffset (.atom a) c).2 by rw [hx]]
        exact xrOffset_bytecode _ c
      simp [hbc]
    · have hi : i < 256 := by
        rw [show i = (xrOffset (.atom a) c).1 by rw [hx]]
        exact xrOffset_fst_lt _ c
      simp [opConst, hi]
  · intro f as c i c1 hx e herr _ c' h
    rw [compileArg, hx] at h
    dsimp only at h
    rw [herr] at h
    cases h
  · intro f as c i c1 hx c2 hok ih c' h
    rw [compileArg, hx] at h
    dsimp only at h
    rw [hok] at h
    injection h with h
    subst h
    rcases ih c2 hok with ⟨δ2, hδ2, hall2⟩
    have hbc : c1.bytecode = c.bytecode := by
      rw [show c1 = (xrOffset (.pind f (Int.ofNat as.length)) c).2 by rw [hx]]
      exact xrOffset_bytecode _ c
    have hi : i < 256 := by
      rw [show i = (xrOffset (.pind f (Int.ofNat as.length)) c).1 by rw [hx]]
      exact xrOffset_fst_lt _ c
    refine ⟨[opFunctor, i] ++ δ2 ++ [opPop], ?_, ?_⟩
    · simp only [hδ2] at *
      simp [hbc, List.append_assoc]
    · simp [opFunctor, opPop, hi, hall2]
  · intro a x hv hf hi ha hc c' h
    cases a with
    | var v => exact absurd rfl (hv v)
    | float b => exact absurd rfl (hf b)
    | int n => exact absurd rfl (hi n)
    | atom s => exact absurd rfl (ha s)
    | compound f as => exact absurd rfl (hc f as)
    | pind n a =>
      rw [show compileArg (Term.pind n a) x =
        Except.error (.systemErrorArg (.pind n a)) from rfl] at h
      cases h
    | nilt =>
      rw [show compileArg Term.nilt x =
        Except.error (.systemErrorArg Term.nilt) from rfl] at h
      cases h
  · intro c c' h
    rw [compileArgList] at h
    injection h with h
    subst h
    exact ⟨[], by simp, rfl⟩
  · intro a as c e herr _ c' h
    rw [compileArgList, herr] at h
    cases h
  · intro a as c c2 hok ih1 ih2 c' h
    rw [compileArgList, hok] at h
    rcases ih1 c2 hok with ⟨δ1, hδ1, hall1⟩
    rcases ih2 c' h with ⟨δ2, hδ2, hall2⟩
    exact ⟨δ1 ++ δ2, by simp [hδ2, hδ1, List.append_assoc], by simp [hall1, hall2]⟩

/-- The argument loop only appends bytes below 256. -/
theorem compileArgList_appends :
    ∀ (l : List Term) (c c' : Clause), compileArgList l c = .ok c' →
      ∃ δ, c'.bytecode = c.bytecode ++ δ ∧ δ.all (fun b => decide (b < 256)) = true := by
  intro l
  induction l with
  | nil =>
    intro c c' h
    rw [compileArgList] at h
    injection h with h
    subst h
    exact ⟨[], by simp, rfl⟩
  | cons a as ih =>
    intro c c' h
    rw [compileArgList] at h
    rcases ha : compileArg a c with e | c2
    · rw [ha] at h
      cases h
    · rw [ha] at h
      rcases compileArg_appends a c c2 ha with ⟨δ1, hδ1, hall1⟩
      rcases ih c2 c' h with ⟨δ2, hδ2, hall2⟩
      exact ⟨δ1 ++ δ2, by simp [hδ2, hδ1, List.append_assoc], by simp [hall1, hall2]⟩

/-- Lemma: `compilePred` only appends to the bytecode, every byte below 256. -/
theorem compilePred_appends (p : Term) (c c' : Clause) (h : compilePred p c = .ok c') :
    ∃ δ, c'.bytecode = c.bytecode ++ δ ∧ δ.all (fun b => decide (b < 256)) = true := by
  cases p with
  | atom s =>
    rcases hx : xrOffset (.pind s 0) c with ⟨i, c1⟩
    rw [compilePred, hx] at h
    injection h with h
    subst h
    have hbc : c1.bytecode = c.bytecode := by
      rw [show c1 = (xrOffset (.pind s 0) c).2 by rw [hx]]
      exact xrOffset_bytecode _ c
    have hi : i < 256 := by
      rw [show i = (xrOffset (.pind s 0) c).1 by rw [hx]]
      exact xrOffset_fst_lt _ c
    exact ⟨[opCall, i], by simp [hbc], by simp [opCall, hi]⟩
  | compound f as =>
    rw [compilePred] at h
    rcases hal : compileArgList as c with e | c1
    · rw [hal] at h
      cases h
    · rw [hal] at h
      dsimp only at h
      rcases hx : xrOffset (.pind f (Int.ofNat as.length)) c1 with ⟨i, c2⟩
      rw [hx] at h
      injection h with h
      subst h
      rcases compileArgList_appends as c c1 hal with ⟨δ1, hδ1, hall1⟩
      have hbc : c2.bytecode = c1.bytecode := by
        rw [show c2 = (xrOffset (.pind f (Int.ofNat as.length)) c1).2 by rw [hx]]
        exact xrOffset_bytecode _ c1
      have hi : i < 256 := by
        rw [show i = (xrOffset (.pind f (Int.ofNat as.length)) c1).1 by rw [hx]]
        exact xrOffset_fst_lt _ c1
      exact ⟨δ1 ++ [opCall, i],
        by simp [hbc, hδ1, List.append_assoc], by simp [opCall, hi, hall1]⟩
  | var v =>
    rw [show compilePred (Term.var v) c =
      Except.error (.typeErrorCallable (.var v)) from rfl] at h
    cases h
  | float b =>
    rw [show compilePred (Term.float b) c =
      Except.error (.typeErrorCallable (.float b)) from rfl] at h
    cases h
  | int n =>
    rw [show compilePred (Term.int n) c =
      Except.error (.typeErrorCallable (.int n)) from rfl] at h
    cases h
  | pind n a =>
    rw [show compilePred (Term.pind n a) c =
      Except.error (.typeErrorCallable (.pind n a)) from rfl] at h
    cases h
  | nilt =>
    rw [show compilePred Term.nilt c =
      Except.error (.typeErrorCallable Term.nilt) from rfl] at h
    cases h

/-- Lemma: `compileGoals` only appends to the bytecode, every byte below 256. -/
theorem compileGoals_appends :
    ∀ (gs : List Term) (c c' : Clause), compileGoals gs c = .ok c' →
      ∃ δ, c'.bytecode = c.bytecode ++ δ ∧ δ.all (fun b => decide (b < 256)) = true := by
  intro gs
  induction gs with
  | nil =>
    intro c c' h
    rw [compileGoals] at h
    injection h with h
    subst h
    exact ⟨[], by simp, rfl⟩
  | cons g gs ih =>
    intro c c' h
    rw [compileGoals] at h
    rcases hg : compilePred g c with e | c1
    · rw [hg] at h
      cases h
    · rw [hg] at h
      rcases compilePred_appends g c c1 hg with ⟨δ1, hδ1, hall1⟩
      rcases ih c1 c' h with ⟨δ2, hδ2, hall2⟩
      exact ⟨δ1 ++ δ2, by simp [hδ2, hδ1, List.append_assoc], by simp [hall1, hall2]⟩

/-- Lemma: `compileHead` only appends to the bytecode, every byte below 256. -/
theorem compileHead_appends (head : Term) (c c' : Clause) (h : compileHead head c = .ok c') :
    ∃ δ, c'.bytecode = c.bytecode ++ δ ∧ δ.all (fun b => decide (b < 256)) = true := by
  cases head with
  | atom s =>
    rw [compileHead] at h
    injection h with h
    subst h
    exact ⟨[], by simp, rfl⟩
  | compound f as => exact compileArgList_appends as c c' h
  | var v =>
    rw [show compileHead (Term.var v) c =
      Except.error (.typeErrorCallable (.var v)) from rfl] at h
    cases h
  | float b =>
    rw [show compileHead (Term.float b) c =
      Except.error (.typeErrorCallable (.float b)) from rfl] at h
    cases h
  | int n =>
    rw [show compileHead (Term.int n) c =
      Except.error (.typeErrorCallable (.int n)) from rfl] at h
    cases h
  | pind n a =>
    rw [show compileHead (Term.pind n a) c =
      Except.error (.typeErrorCallable (.pind n a)) from rfl] at h
    cases h
  | nilt =>
    rw [show compileHead Term.nilt c =
      Except.error (.typeErrorCallable Term.nilt) from rfl] at h
    cases h

/-- The Go body loop is the spec's spine walk: compiling a body is
compiling the goals of its right-leaning `','/2` spine in order. -/
theorem compileBody_eq_goals (b : Term) (c : Clause) :
    compileBody b c = compileGoals (spine b) c := by
  induction b, c using compileBody.induct with
  | case1 g rest c e herr =>
    rw [compileBody, herr, spine, compileGoals, herr]
  | case2 g rest c c2 hok ih =>
    rw [compileBody, hok, spine, compileGoals, hok]
    exact ih
  | case3 t c hne =>
    have hb : compileBody t c = compilePred t c := by
      unfold compileBody
      split
      · rename_i g rest
        exact absurd rfl (fun h => hne g rest h)
      · rfl
    have hs : spine t = [t] := by
      unfold spine
      split
      · rename_i g rest
        exact absurd rfl (fun h => hne g rest h)
      · rfl
    rw [hb, hs]
    have hg : compileGoals [t] c =
        match compilePred t c with
        | .error e => Except.error e
        | .ok c1 => Except.ok c1 := rfl
    rw [hg]
    rcases hp : compilePred t c with e | c1 <;> rfl

/-- C5: every successful clause compilation ends the bytecode with the
`exit` instruction; with a body present, the bytecode after the
head-matching prefix is exactly `enter`, then the goals of the body's
right-leaning `','/2` spine compiled in left-to-right order
(`compileGoals` over `spine`), then `exit`; a fact compiles to the
head-matching prefix followed directly by `exit`. -/
theorem compile_clause_structure (head : Term) (ob : Option Term) (c0 c : Clause)
    (h : compileClause head ob c0 = .ok c) :
    c.bytecode.getLast? = some opExit ∧
    (∀ b, ob = some b →
      ∃ c1 c2, compileHead head c0 = .ok c1 ∧
        compileGoals (spine b) { c1 with bytecode := c1.bytecode ++ [opEnter] } = .ok c2 ∧
        c.bytecode = c2.bytecode ++ [opExit] ∧
        ∃ bodyCode, c2.bytecode = c1.bytecode ++ [opEnter] ++ bodyCode) ∧
    (ob = none → ∃ c1, compileHead head c0 = .ok c1 ∧ c.bytecode = c1.bytecode ++ [opExit]) := by
  rw [compileClause] at h
  rcases hh : compileHead head c0 with e | c1
  · rw [hh] at h
    cases h
  · rw [hh] at h
    dsimp only at h
    cases ob with
    | none =>
      dsimp only at h
      injection h with h
      subst h
      refine ⟨List.getLast?_concat _, ?_, ?_⟩
      · intro b hb
        cases hb
      · intro _
        exact ⟨c1, rfl, rfl⟩
    | some b =>
      dsimp only at h
      rw [compileBody_eq_goals] at h
      rcases hg : compileGoals (spine b) { c1 with bytecode := c1.bytecode ++ [opEnter] }
        with e | c2
      · rw [hg] at h
        cases h
      · rw [hg] at h
        injection h with h
        subst h
        refine ⟨List.getLast?_concat _, ?_, ?_⟩
        · intro b' hb
          injection hb with hb
          subst hb
          rcases compileGoals_appends (spine b) _ c2 hg with ⟨δ, hδ, _⟩
          exact ⟨c1, c2, rfl, hg, rfl, δ, by simpa [List.append_assoc] using hδ⟩
        · intro hn
          cases hn

/-- Witness for C5: the rule `p :- q` compiles to
`enter, call q/0, exit`. -/
theorem compile_clause_structure_instance :
    (Clause.bytecode { xrTable := [Term.pind "q" 0], vars := [], bytecode := [1, 2, 0, 3] }).getLast? =
      some opExit :=
  (compile_clause_structure (.atom "p") (some (.atom "q")) { xrTable := [], vars := [], bytecode := [] }
    { xrTable := [Term.pind "q" 0], vars := [], bytecode := [1, 2, 0, 3] } rfl).1

/-- C4 (amended): every byte of a successfully compiled clause's
bytecode — opcodes and operands alike — is below 256; the operand
emitted by `xrOffset`/`varOffset` is the table index truncated to a
byte, so compilation never fails on account of table size (see the
counterexample theorem for a clause whose 257 distinct variable slots
compile without error, with the wrapped operand aliasing slot 0). -/
theorem compile_operands_byte (head : Term) (ob : Option Term) (c0 c : Clause)
    (h0 : c0.bytecode.all (fun b => decide (b < 256)) = true)
    (h : compileClause head ob c0 = .ok c) :
    c.bytecode.all (fun b => decide (b < 256)) = true := by
  rw [compileClause] at h
  rcases hh : compileHead head c0 with e | c1
  · rw [hh] at h
    cases h
  · rw [hh] at h
    dsimp only at h
    rcases compileHead_appends head c0 c1 hh with ⟨δh, hδh, hallh⟩
    cases ob with
    | none =>
      dsimp only at h
      injection h with h
      subst h
      simp [hδh, h0, hallh, opExit]
    | some b =>
      dsimp only at h
      rw [compileBody_eq_goals] at h
      rcases hg : compileGoals (spine b) { c1 with bytecode := c1.bytecode ++ [opEnter] }
        with e | c2
      · rw [hg] at h
        cases h
      · rw [hg] at h
        injection h with h
        subst h
        rcases compileGoals_appends (spine b) _ c2 hg with ⟨δg, hδg, hallg⟩
        simp only [hδg]
        simp [hδh, h0, hallh, hallg, opEnter, opExit]

/-- Witness for C4 (amended): the fact `p(X)` compiles to bytecode
`[var, 0, exit]`, all bytes below 256. -/
theorem compile_operands_byte_instance :
    (Clause.bytecode { xrTable := [], vars := [7], bytecode := [5, 0, 3] }).all
      (fun b => decide (b < 256)) = true :=
  compile_operands_byte (.compound "p" [.var 7]) none
    { xrTable := [], vars := [], bytecode := [] }
    { xrTable := [], vars := [7], bytecode := [5, 0, 3] } rfl rfl

theorem varFind_eq_none (vs : List Nat) (v : Nat) (h : v ∉ vs) : varFind vs v = none := by
  induction vs with
  | nil => rfl
  | cons w rest ih =>
    rw [varFind, if_neg (fun hw : w = v => h (hw ▸ List.mem_cons_self w rest)),
      ih (fun hv => h (List.mem_cons_of_mem w hv))]
    rfl

/-- Compiling a head argument list of `m` distinct fresh variables
(identities `k, k+1, …`) onto a clause whose slots are `0, …, k-1`
succeeds, extends the slots to `0, …, k+m-1`, and emits for each
variable `i` the pair `var, i % 256` — the operand is the slot index
truncated to a byte. -/
theorem compileArgList_range (m : Nat) :
    ∀ (k : Nat) (xr : List Term) (bc : List Nat),
      compileArgList ((List.range' k m).map Term.var)
          { xrTable := xr, vars := List.range k, bytecode := bc } =
        .ok { xrTable := xr, vars := List.range (k + m),
              bytecode := bc ++ (((List.range' k m).map (fun i => [opVar, i % 256])).flatten) } := by
  induction m with
  | zero =>
    intro k xr bc
    simp [compileArgList]
  | succ m ih =>
    intro k xr bc
    rw [List.range'_succ]
    have hv : varOffset k { xrTable := xr, vars := List.range k, bytecode := bc } =
        (k % 256, { xrTable := xr, vars := List.range (k + 1), bytecode := bc }) := by
      unfold varOffset
      rw [varFind_eq_none _ _ (by simp [List.mem_range])]
      simp [List.length_range, List.range_succ]
    have harg : compileArg (.var k) { xrTable := xr, vars := List.range k, bytecode := bc } =
        .ok { xrTable := xr, vars := List.range (k + 1), bytecode := bc ++ [opVar, k % 256] } := by
      rw [compileArg, hv]
    rw [List.map_cons, compileArgList, harg]
    dsimp only
    rw [ih (k + 1) xr (bc ++ [opVar, k % 256])]
    rw [show k + (m + 1) = k + 1 + m by omega]
    simp [List.append_assoc]

set_option maxRecDepth 4000 in
/-- C4 (counterexample): a fact whose head has 257 distinct variable
arguments needs 257 variable slots, yet compilation succeeds (no error
is returned); the operand bytes are the slot indices mod 256, so the
operand emitted for slot 256 (at bytecode position 513) is 0 — the
same operand as for slot 0 (at position 1), no longer identifying its
table entry. -/
theorem compile_overflow_truncates_cex :
    compileClause (.compound "p" ((List.range 257).map Term.var)) none
        { xrTable := [], vars := [], bytecode := [] } =
      .ok { xrTable := [], vars := List.range 257,
            bytecode :=
              (((List.range' 0 257).map (fun i => [opVar, i % 256])).flatten) ++ [opExit] } ∧
    ((((List.range' 0 257).map (fun i => [opVar, i % 256])).flatten) ++ [opExit]).get? 1 =
      some 0 ∧
    ((((List.range' 0 257).map (fun i => [opVar, i % 256])).flatten) ++ [opExit]).get? 513 =
      some 0 ∧
    (List.range 257).length = 257 := by
  refine ⟨?_, by decide, by decide, by decide⟩
  have hh : compileHead (.compound "p" ((List.range 257).map Term.var))
      { xrTable := [], vars := [], bytecode := [] } =
      .ok { xrTable := [], vars := List.range 257,
            bytecode := ((List.range' 0 257).map (fun i => [opVar, i % 256])).flatten } := by
    rw [compileHead, List.range_eq_range']
    have := compileArgList_range 257 0 [] []
    simpa using this
  rw [compileClause, hh]

/-- C7: each host-registered predicate wrapper of arity n (0..5)
unifies the packed argument list with a list of exactly n freshly
allocated variables and, on success, invokes the host function on
those variables with the continuation that runs the single-instruction
program `[exit]`; when the packed list does not unify with an
n-element list the result is an error Promise (wrong number of
arguments), never a plain `false`.  Running the `[exit]` continuation
yields `Delay(k)`, threading back into the caller's continuation. -/
theorem host_predicate_dispatch (uf fid : Nat) (args : Term) (k : Cont) (σ : St) :
    procCall uf (.pred0 fid) args k σ = hostDispatchSpec uf 0 fid args k σ .errWrongArity ∧
    procCall uf (.pred1 fid) args k σ =
      hostDispatchSpec uf 1 fid args k σ (.errWrongArityArgs args) ∧
    procCall uf (.pred2 fid) args k σ = hostDispatchSpec uf 2 fid args k σ .errWrongArity ∧
    procCall uf (.pred3 fid) args k σ = hostDispatchSpec uf 3 fid args k σ .errWrongArity ∧
    procCall uf (.pred4 fid) args k σ = hostDispatchSpec uf 4 fid args k σ .errWrongArity ∧
    procCall uf (.pred5 fid) args k σ = hostDispatchSpec uf 5 fid args k σ .errWrongArity ∧
    runCont uf (.hostExit k) σ = (σ, .delay [.runK k]) := by
  refine ⟨?_, ?_, ?_, ?_, ?_, ?_, ?_⟩ <;> rfl

/-- C6: the `call i` instruction first unifies `args` with the empty
list (a failed unification fails the activation with `false`, keeping
the bindings the attempt made), then requires `xr[i]` to be a
procedure indicator (an error Promise otherwise), and otherwise
returns a delayed computation that dispatches that indicator on the
current `astack` as the packed arguments with the continuation that
resumes the bytecode after the instruction; running that continuation
allocates one single fresh variable and delays `exec` of the remaining
bytecode with both `args` and `astack` set to that variable. -/
theorem exec_call_instruction (uf i : Nat) (rest : List Nat) (xr : List Term)
    (vars : List Nat) (k : Cont) (args astack : Term) (σ : St) (x : Term)
    (hx : xr.get? i = some x) :
    (∀ env1, unify0 uf args emptyList false σ.env = (env1, false) →
      exec uf (2 :: i :: rest) xr vars k args astack σ =
        ({ σ with env := env1 }, .bool false)) ∧
    (∀ env1, unify0 uf args emptyList false σ.env = (env1, true) →
      (∀ f n, x ≠ .pind f n) →
      exec uf (2 :: i :: rest) xr vars k args astack σ =
        ({ σ with env := env1 }, .error .errNotPrincipalFunctor)) ∧
    (∀ env1 f n, unify0 uf args emptyList false σ.env = (env1, true) →
      x = .pind f n →
      exec uf (2 :: i :: rest) xr vars k args astack σ =
        ({ σ with env := env1 },
         .delay [.arriveT (f, n) astack (.execAfter rest xr vars k)])) ∧
    (∀ σ2, runCont uf (.execAfter rest xr vars k) σ2 =
      ({ σ2 with fresh := σ2.fresh + 1 },
       .delay [.execT rest xr vars k (.var σ2.fresh) (.var σ2.fresh)])) := by
  refine ⟨?_, ?_, ?_, fun σ2 => rfl⟩
  · intro env1 hu
    show (match xr.get? i with
      | none => (σ, Promise.panicked "index out of range")
      | some x =>
        match unify0 uf args emptyList false σ.env with
        | (env1, false) => ({ σ with env := env1 }, Promise.bool false)
        | (env1, true) =>
          match x with
          | .pind f n =>
            ({ σ with env := env1 },
             Promise.delay [.arriveT (f, n) astack (.execAfter rest xr vars k)])
          | _ => ({ σ with env := env1 }, Promise.error .errNotPrincipalFunctor)) = _
    rw [hx, hu]
  · intro env1 hu hnp
    show (match xr.get? i with
      | none => (σ, Promise.panicked "index out of range")
      | some x =>
        match unify0 uf args emptyList false σ.env with
        | (env1, false) => ({ σ with env := env1 }, Promise.bool false)
        | (env1, true) =>
          match x with
          | .pind f n =>
            ({ σ with env := env1 },
             Promise.delay [.arriveT (f, n) astack (.execAfter rest xr vars k)])
          | _ => ({ σ with env := env1 }, Promise.error .errNotPrincipalFunctor)) = _
    rw [hx, hu]
    match x, hnp with
    | .atom s, _ => rfl
    | .int n, _ => rfl
    | .float b, _ => rfl
    | .var v, _ => rfl
    | .compound f as, _ => rfl
    | .nilt, _ => rfl
    | .pind f n, hnp => exact absurd rfl (hnp f n)
  · intro env1 f n hu hpi
    subst hpi
    show (match xr.get? i with
      | none => (σ, Promise.panicked "index out of range")
      | some x =>
        match unify0 uf args emptyList false σ.env with
        | (env1, false) => ({ σ with env := env1 }, Promise.bool false)
        | (env1, true) =>
          match x with
          | .pind f n =>
            ({ σ with env := env1 },
             Promise.delay [.arriveT (f, n) astack (.execAfter rest xr vars k)])
          | _ => ({ σ with env := env1 }, Promise.error .errNotPrincipalFunctor)) = _
    rw [hx, hu]

/-- Witness for C6: calling `q/0` with an empty argument list delays
the dispatch of `q/0` on the current `astack`. -/
theorem exec_call_instruction_instance :
    exec 1 [2, 0, 3] [.pind "q" 0] [] .done emptyList emptyList { env := [], fresh := 0 } =
      ({ env := [], fresh := 0 },
       .delay [.arriveT ("q", 0) emptyList (.execAfter [3] [.pind "q" 0] [] .done)]) :=
  (exec_call_instruction 1 0 [3] [.pind "q" 0] [] .done emptyList emptyList
    { env := [], fresh := 0 } (.pind "q" 0) rfl).2.2.1 [] "q" 0 rfl rfl

/-- Witness for C8: opcode 9 on an otherwise-empty machine. -/
theorem exec_internal_errors_instance :
    exec 0 [9] [] [] .done emptyList emptyList { env := [], fresh := 0 } =
      ({ env := [], fresh := 0 }, .error (.errUnknownOpcode 9)) :=
  (exec_internal_errors 0 9 [] [] [] .done emptyList emptyList
    { env := [], fresh := 0 }).1 (by omega)

end P0
